import Mathlib

/-!
# Verification of the vs-sapf text/definition parsing core

A shallow embedding, over `List Char`, of the algorithmic core of the
vs-sapf editor extension:

* the indentation formatter `formatSapfCode` (src/unnamed/part_001);
* the bracket-balance block locators `getBlockOrLine` / `findInnerBlock`
  (src/unnamed/part_000) together with the line fallback `getLine`
  (src/src/text/utils.ts) and the bracket configuration
  (src/src/config/constants.ts);
* the help-output catalog parser `parseSapfHelpOutput`
  (src/src/language-generator.ts);
* the shared description-splitting rule `languagePattern` as applied by
  `parseKeywordDescription` (src/src/config/constants.ts, src/unnamed/part_004).

Strings are modelled as `List Char`.  JavaScript regular expressions are
modelled by functions that reproduce the backtracking engine's behaviour on
the patterns appearing in the source (alternatives are enumerated in the
engine's preference order and the first globally successful one is kept).
-/

namespace VsSapf

/-- The JavaScript whitespace class `\s` (also used by `String.trim`),
restricted to the code points it names explicitly plus the ASCII and
Unicode space characters. -/
def isWs (c : Char) : Bool :=
  c = ' ' || c = '\t' || c = '\n' || c = '\r' || c = '\x0b' || c = '\x0c' ||
  c = '\u00A0' || c = '\u1680' ||
  ('\u2000' ≤ c && c ≤ '\u200A') ||
  c = '\u2028' || c = '\u2029' || c = '\u202F' || c = '\u205F' ||
  c = '\u3000' || c = '\uFEFF'

/-- JavaScript line terminators: the characters *not* matched by `.`
in a regular expression without the `s` flag. -/
def isLineTerm (c : Char) : Bool :=
  c = '\n' || c = '\r' || c = '\u2028' || c = '\u2029'

theorem dropWhile_length_le {α : Type} (p : α → Bool) :
    ∀ l : List α, (l.dropWhile p).length ≤ l.length := by
  intro l
  induction l with
  | nil => simp [List.dropWhile]
  | cons c rest ih =>
    simp only [List.dropWhile]
    cases p c
    · simp
    · simpa using Nat.le_succ_of_le ih

/-- `str.replace(/\s+/g, ' ')`: every maximal whitespace run becomes one
space.  Structured as a one-character-lookahead recursion so that it is
structurally recursive; `collapseWs_cons` restates it as "a whitespace run
is replaced by one space". -/
def collapseWs : List Char → List Char
  | [] => []
  | [c] => if isWs c then [' '] else [c]
  | c :: d :: rest =>
    if isWs c then
      if isWs d then collapseWs (d :: rest)
      else ' ' :: collapseWs (d :: rest)
    else c :: collapseWs (d :: rest)

/-- `collapseWs` consumes a whole maximal whitespace run at once. -/
theorem collapseWs_cons (c : Char) (rest : List Char) :
    collapseWs (c :: rest) =
      if isWs c then ' ' :: collapseWs (rest.dropWhile isWs)
      else c :: collapseWs rest := by
  induction rest generalizing c with
  | nil => by_cases h : isWs c = true <;> simp [collapseWs, h, List.dropWhile]
  | cons d rest' ih =>
    by_cases hc : isWs c = true <;> by_cases hd : isWs d = true <;>
      simp [collapseWs, hc, hd, List.dropWhile_cons, ih]

/-- Leading-whitespace removal, the left half of `String.trim`. -/
def trimLeft (l : List Char) : List Char := l.dropWhile isWs

/-- Trailing-whitespace removal, the right half of `String.trim`. -/
def trimRight : List Char → List Char
  | [] => []
  | c :: rest =>
    match trimRight rest with
    | [] => if isWs c then [] else [c]
    | r => c :: r

/-- JavaScript `String.trim`. -/
def trimWs (l : List Char) : List Char := trimRight (trimLeft l)

/-- `code.split('\n')`. -/
def splitOnNl : List Char → List (List Char)
  | [] => [[]]
  | c :: rest =>
    if c = '\n' then [] :: splitOnNl rest
    else
      match splitOnNl rest with
      | [] => [[c]]
      | h :: t => (c :: h) :: t

/-- `lines.join('\n')`. -/
def joinNl : List (List Char) → List Char
  | [] => []
  | [l] => l
  | l :: l' :: ls => l ++ '\n' :: joinNl (l' :: ls)

/-- An opening bracket of any of the three kinds (`(`, `[`, `{`). -/
def isOpenBracket (c : Char) : Bool := c = '(' || c = '[' || c = '{'

/-- A closing bracket of any of the three kinds (`)`, `]`, `}`). -/
def isCloseBracket (c : Char) : Bool := c = ')' || c = ']' || c = '}'

/-- `indentSize` from src/src/config/constants.ts. -/
def indentSize : Nat := 2

/-- `cleanedLine.startsWith(';;')`. -/
def startsWithComment (l : List Char) : Bool := l.take 2 = [';', ';']

/-- `/^[)\]}]/.test(cleanedLine)`: the first character is a closing
bracket. -/
def startsWithClosing (l : List Char) : Bool :=
  match l with
  | [] => false
  | c :: _ => isCloseBracket c

/-- The indentation level used for one emitted line: the current level,
outdented by one (clamped at zero) when the line starts with a closing
bracket.  From src/unnamed/part_001, lines 36–44. -/
def lineIndentFor (indentLevel : Int) (cleanedLine : List Char) : Int :=
  if startsWithClosing cleanedLine then max 0 (indentLevel - 1) else indentLevel

/-- The indentation level carried to the next line:
`Math.max(0, indentLevel + openingBrackets - closingBrackets)`.
From src/unnamed/part_001, lines 59–62. -/
def nextIndentLevel (indentLevel : Int) (cleanedLine : List Char) : Int :=
  max 0 (indentLevel +
    (cleanedLine.countP isOpenBracket : Int) - (cleanedLine.countP isCloseBracket : Int))

/-- One iteration of the `for (const line of lines)` loop of
`formatSapfCode`: maps the running indent level and the raw line to the
emitted line and the next indent level.  `' '.repeat(n)` is modelled with
`Int.toNat`; the running level is never negative (see the clamping in
`lineIndentFor` / `nextIndentLevel`), so `toNat` is faithful. -/
def formatLine (indentLevel : Int) (line : List Char) : List Char × Int :=
  let trimmedLine := trimWs line
  if trimmedLine = [] then ([], indentLevel)
  else
    let cleanedLine := collapseWs trimmedLine
    if startsWithComment cleanedLine then
      (List.replicate (indentLevel * (indentSize : Int)).toNat ' ' ++ cleanedLine, indentLevel)
    else
      let li := lineIndentFor indentLevel cleanedLine
      (List.replicate (li * (indentSize : Int)).toNat ' ' ++ cleanedLine,
       nextIndentLevel indentLevel cleanedLine)

/-- The whole loop of `formatSapfCode`, threading the indent level through
the lines. -/
def formatLines (s : Int) : List (List Char) → List (List Char)
  | [] => []
  | l :: ls =>
    let p := formatLine s l
    p.1 :: formatLines p.2 ls

/-- `formatSapfCode` from src/unnamed/part_001: split on newlines, format
each line with a running indent level starting at 0, join with newlines. -/
def formatSapfCode (code : List Char) : List Char :=
  joinNl (formatLines 0 (splitOnNl code))

/-- The running indent levels observed after each processed line, used to
state the non-negativity invariant of the formatter. -/
def levelsAfter (s : Int) : List (List Char) → List Int
  | [] => []
  | l :: ls =>
    let s' := (formatLine s l).2
    s' :: levelsAfter s' ls

/-! ### Normal forms of formatted lines -/

/-- The first character, if any, is not whitespace. -/
def headOk : List Char → Bool
  | [] => true
  | c :: _ => !isWs c

/-- The last character, if any, is not whitespace. -/
def lastOk : List Char → Bool
  | [] => true
  | [c] => !isWs c
  | _ :: c :: rest => lastOk (c :: rest)

theorem lastOk_cons_of_ne_nil {c : Char} {rest : List Char} (h : rest ≠ []) :
    lastOk (c :: rest) = lastOk rest := by
  cases rest with
  | nil => exact absurd rfl h
  | cons x xs => rfl

theorem collapseWs_ne_nil {l : List Char} (h : l ≠ []) : collapseWs l ≠ [] := by
  cases l with
  | nil => exact absurd rfl h
  | cons c rest =>
    rw [collapseWs_cons]
    split <;> simp

theorem dropWhile_of_headOk {l : List Char} (h : headOk l = true) :
    l.dropWhile isWs = l := by
  cases l with
  | nil => rfl
  | cons c rest =>
    simp only [headOk, Bool.not_eq_true'] at h
    simp [List.dropWhile, h]

theorem headOk_dropWhile (l : List Char) : headOk (l.dropWhile isWs) = true := by
  induction l with
  | nil => rfl
  | cons c rest ih =>
    by_cases h : isWs c = true
    · simpa [List.dropWhile, h] using ih
    · simp only [Bool.not_eq_true] at h
      simp [List.dropWhile, h, headOk]

theorem headOk_collapseWs {l : List Char} (h : headOk l = true) :
    headOk (collapseWs l) = true := by
  cases l with
  | nil => rfl
  | cons c rest =>
    simp only [headOk, Bool.not_eq_true'] at h
    rw [collapseWs_cons, if_neg (by simp [h])]
    simp [headOk, h]

theorem collapseWs_idem : ∀ l : List Char, collapseWs (collapseWs l) = collapseWs l := by
  have key : ∀ n, ∀ l : List Char, l.length ≤ n → collapseWs (collapseWs l) = collapseWs l := by
    intro n
    induction n with
    | zero =>
      intro l hl
      rw [List.length_eq_zero.mp (Nat.le_zero.mp hl)]
      rfl
    | succ k ih =>
      intro l hl
      cases l with
      | nil => rfl
      | cons c rest =>
        simp only [List.length_cons, Nat.succ_le_succ_iff] at hl
        by_cases hc : isWs c = true
        · rw [collapseWs_cons, if_pos hc, collapseWs_cons, if_pos (by decide),
            dropWhile_of_headOk (headOk_collapseWs (headOk_dropWhile rest)),
            ih _ (Nat.le_trans (dropWhile_length_le _ _) hl)]
        · rw [collapseWs_cons, if_neg hc, collapseWs_cons, if_neg hc, ih rest hl]
  exact fun l => key l.length l le_rfl

theorem dropWhile_lastOk {l : List Char} (hne : l ≠ []) (h : lastOk l = true) :
    l.dropWhile isWs ≠ [] ∧ lastOk (l.dropWhile isWs) = true := by
  induction l with
  | nil => exact absurd rfl hne
  | cons c rest ih =>
    by_cases hc : isWs c = true
    · cases rest with
      | nil => simp [lastOk, hc] at h
      | cons x xs =>
        rw [lastOk_cons_of_ne_nil (by simp)] at h
        rw [List.dropWhile_cons_of_pos hc]
        exact ih (by simp) h
    · simp only [Bool.not_eq_true] at hc
      rw [List.dropWhile_cons_of_neg (by simp [hc])]
      exact ⟨by simp, h⟩

theorem lastOk_collapseWs {l : List Char} (hlast : lastOk l = true) :
    lastOk (collapseWs l) = true := by
  have key : ∀ n, ∀ l : List Char, l.length ≤ n → lastOk l = true →
      lastOk (collapseWs l) = true := by
    intro n
    induction n with
    | zero =>
      intro l hl _
      rw [List.length_eq_zero.mp (Nat.le_zero.mp hl)]
      rfl
    | succ k ih =>
      intro l hl h
      cases l with
      | nil => rfl
      | cons c rest =>
        simp only [List.length_cons, Nat.succ_le_succ_iff] at hl
        by_cases hc : isWs c = true
        · cases rest with
          | nil => simp [lastOk, hc] at h
          | cons x xs =>
            rw [lastOk_cons_of_ne_nil (by simp)] at h
            have hd := dropWhile_lastOk (l := x :: xs) (by simp) h
            rw [collapseWs_cons, if_pos hc,
              lastOk_cons_of_ne_nil (collapseWs_ne_nil hd.1)]
            exact ih _ (Nat.le_trans (dropWhile_length_le _ _) hl) hd.2
        · rw [collapseWs_cons, if_neg hc]
          cases rest with
          | nil => simpa [lastOk] using h
          | cons x xs =>
            rw [lastOk_cons_of_ne_nil (by simp)] at h
            rw [lastOk_cons_of_ne_nil (collapseWs_ne_nil (by simp))]
            exact ih _ hl h
  exact key l.length l le_rfl hlast

theorem headOk_trimLeft (l : List Char) : headOk (trimLeft l) = true :=
  headOk_dropWhile l

theorem trimLeft_eq_of_headOk {l : List Char} (h : headOk l = true) : trimLeft l = l :=
  dropWhile_of_headOk h

theorem trimLeft_replicate_space (n : Nat) (l : List Char) :
    trimLeft (List.replicate n ' ' ++ l) = trimLeft l := by
  induction n with
  | zero => rfl
  | succ k ih =>
    simp only [List.replicate_succ, List.cons_append, trimLeft] at *
    rw [List.dropWhile_cons_of_pos (by decide)]
    exact ih

theorem headOk_trimRight {l : List Char} (h : headOk l = true) :
    headOk (trimRight l) = true := by
  cases l with
  | nil => rfl
  | cons c rest =>
    simp only [headOk, Bool.not_eq_true'] at h
    rw [trimRight]
    cases htr : trimRight rest with
    | nil => simp [h, headOk]
    | cons x xs => simp [headOk, h]

theorem lastOk_trimRight : ∀ l : List Char, lastOk (trimRight l) = true := by
  intro l
  induction l with
  | nil => rfl
  | cons c rest ih =>
    rw [trimRight]
    cases htr : trimRight rest with
    | nil =>
      by_cases hc : isWs c = true
      · simp [hc, lastOk]
      · simp only [Bool.not_eq_true] at hc
        simp [hc, lastOk]
    | cons x xs =>
      rw [htr] at ih
      rw [lastOk_cons_of_ne_nil (by simp)]
      exact ih

theorem trimRight_eq_of_lastOk : ∀ {l : List Char}, lastOk l = true → trimRight l = l := by
  intro l
  induction l with
  | nil => intro _; rfl
  | cons c rest ih =>
    intro h
    cases rest with
    | nil =>
      simp only [lastOk, Bool.not_eq_true'] at h
      simp [trimRight, h]
    | cons x xs =>
      rw [lastOk_cons_of_ne_nil (by simp)] at h
      rw [trimRight, ih h]

theorem headOk_trimWs (l : List Char) : headOk (trimWs l) = true :=
  headOk_trimRight (headOk_trimLeft l)

theorem lastOk_trimWs (l : List Char) : lastOk (trimWs l) = true :=
  lastOk_trimRight _

theorem trimWs_eq_of_ok {l : List Char} (h1 : headOk l = true) (h2 : lastOk l = true) :
    trimWs l = l := by
  rw [trimWs, trimLeft_eq_of_headOk h1, trimRight_eq_of_lastOk h2]

theorem trimWs_replicate_space (n : Nat) (l : List Char) :
    trimWs (List.replicate n ' ' ++ l) = trimWs l := by
  rw [trimWs, trimWs, trimLeft_replicate_space]

/-- An already-formatted line body survives untouched: stripping the emitted
indentation and re-trimming gives the body back. -/
theorem trimWs_replicate_collapse (n : Nat) (l : List Char) :
    trimWs (List.replicate n ' ' ++ collapseWs (trimWs l)) = collapseWs (trimWs l) := by
  rw [trimWs_replicate_space]
  exact trimWs_eq_of_ok (headOk_collapseWs (headOk_trimWs l)) (lastOk_collapseWs (lastOk_trimWs l))

/-! ### Idempotence of the formatter -/

theorem trimWs_nil : trimWs [] = [] := rfl

theorem formatLine_fix (s : Int) (l : List Char) :
    formatLine s (formatLine s l).1 = formatLine s l := by
  by_cases h0 : trimWs l = []
  · have h1 : formatLine s l = ([], s) := by simp only [formatLine, if_pos h0]
    rw [h1]
    simp [formatLine, trimWs_nil]
  · have hne : collapseWs (trimWs l) ≠ [] := collapseWs_ne_nil h0
    have hcol := collapseWs_idem (trimWs l)
    by_cases hcm : startsWithComment (collapseWs (trimWs l)) = true
    · simp only [formatLine, if_neg h0, if_pos hcm]
      simp only [formatLine, trimWs_replicate_collapse, if_neg hne, hcol, if_pos hcm]
    · simp only [formatLine, if_neg h0, if_neg hcm]
      simp only [formatLine, trimWs_replicate_collapse, if_neg hne, hcol, if_neg hcm]

theorem formatLines_fix (ls : List (List Char)) :
    ∀ s, formatLines s (formatLines s ls) = formatLines s ls := by
  induction ls with
  | nil => intro s; rfl
  | cons l ls ih =>
    intro s
    simp only [formatLines, formatLine_fix, ih]

theorem splitOnNl_ne_nil (t : List Char) : splitOnNl t ≠ [] := by
  cases t with
  | nil => simp [splitOnNl]
  | cons c rest =>
    rw [splitOnNl]
    split
    · simp
    · split <;> simp

theorem no_nl_mem_splitOnNl : ∀ (t l : List Char), l ∈ splitOnNl t → '\n' ∉ l := by
  intro t
  induction t with
  | nil =>
    intro l hl
    simp only [splitOnNl, List.mem_singleton] at hl
    simp [hl]
  | cons c rest ih =>
    intro l hl
    rw [splitOnNl] at hl
    by_cases hc : c = '\n'
    · rw [if_pos hc] at hl
      rcases List.mem_cons.mp hl with h | h
      · simp [h]
      · exact ih l h
    · rw [if_neg hc] at hl
      cases hsp : splitOnNl rest with
      | nil => exact absurd hsp (splitOnNl_ne_nil rest)
      | cons hh tt =>
        rw [hsp] at hl
        rcases List.mem_cons.mp hl with h | h
        · subst h
          intro hmem
          rcases List.mem_cons.mp hmem with h' | h'
          · exact hc h'.symm
          · exact ih hh (hsp ▸ List.mem_cons_self _ _) h'
        · exact ih l (hsp ▸ List.mem_cons_of_mem _ h)

theorem splitOnNl_of_no_nl : ∀ o : List Char, '\n' ∉ o → splitOnNl o = [o] := by
  intro o
  induction o with
  | nil => intro _; rfl
  | cons c rest ih =>
    intro h
    rw [List.mem_cons, not_or] at h
    rw [splitOnNl, if_neg (fun he => h.1 he.symm)]
    rw [ih h.2]

theorem splitOnNl_append_nl (o : List Char) (rest : List Char) (h : '\n' ∉ o) :
    splitOnNl (o ++ '\n' :: rest) = o :: splitOnNl rest := by
  induction o with
  | nil => rw [List.nil_append, splitOnNl, if_pos rfl]
  | cons c o' ih =>
    rw [List.mem_cons, not_or] at h
    rw [List.cons_append, splitOnNl, if_neg (fun he => h.1 he.symm),
      ih h.2]

theorem splitOnNl_joinNl : ∀ os : List (List Char), os ≠ [] →
    (∀ l ∈ os, '\n' ∉ l) → splitOnNl (joinNl os) = os := by
  intro os
  induction os with
  | nil => intro h; exact absurd rfl h
  | cons o os' ih =>
    intro _ hnl
    cases os' with
    | nil =>
      rw [joinNl]
      exact splitOnNl_of_no_nl o (hnl o (List.mem_cons_self _ _))
    | cons o2 os'' =>
      rw [joinNl, splitOnNl_append_nl o _ (hnl o (List.mem_cons_self _ _)),
        ih (by simp) (fun l hl => hnl l (List.mem_cons_of_mem _ hl))]

theorem mem_of_mem_dropWhile {α : Type} {p : α → Bool} {a : α} :
    ∀ {l : List α}, a ∈ l.dropWhile p → a ∈ l := by
  intro l
  induction l with
  | nil => intro h; exact absurd h (by simp [List.dropWhile])
  | cons c rest ih =>
    intro h
    rw [List.dropWhile_cons] at h
    by_cases hc : p c = true
    · rw [if_pos hc] at h
      exact List.mem_cons_of_mem _ (ih h)
    · rw [if_neg hc] at h
      exact h

theorem mem_of_mem_trimRight {a : Char} : ∀ {l : List Char}, a ∈ trimRight l → a ∈ l := by
  intro l
  induction l with
  | nil => intro h; exact absurd h (by simp [trimRight])
  | cons c rest ih =>
    intro h
    rw [trimRight] at h
    cases htr : trimRight rest with
    | nil =>
      rw [htr] at h
      by_cases hc : isWs c = true
      · rw [if_pos hc] at h
        exact absurd h (by simp)
      · rw [if_neg hc] at h
        simp only [List.mem_singleton] at h
        simp [h]
    | cons x xs =>
      rw [htr] at h
      rcases List.mem_cons.mp h with h' | h'
      · simp [h']
      · exact List.mem_cons_of_mem _ (ih (by rw [htr]; exact h'))

theorem mem_of_mem_trimWs {a : Char} {l : List Char} (h : a ∈ trimWs l) : a ∈ l :=
  mem_of_mem_dropWhile (mem_of_mem_trimRight h)

theorem mem_collapseWs {a : Char} {l : List Char} (h : a ∈ collapseWs l) :
    a = ' ' ∨ a ∈ l := by
  have key : ∀ n, ∀ l : List Char, l.length ≤ n → a ∈ collapseWs l → a = ' ' ∨ a ∈ l := by
    intro n
    induction n with
    | zero =>
      intro l hl hm
      rw [List.length_eq_zero.mp (Nat.le_zero.mp hl)] at hm
      exact absurd hm (by simp [collapseWs])
    | succ k ih =>
      intro l hl hm
      cases l with
      | nil => exact absurd hm (by simp [collapseWs])
      | cons c rest =>
        simp only [List.length_cons, Nat.succ_le_succ_iff] at hl
        rw [collapseWs_cons] at hm
        by_cases hc : isWs c = true
        · rw [if_pos hc] at hm
          rcases List.mem_cons.mp hm with h' | h'
          · exact Or.inl h'
          · rcases ih _ (Nat.le_trans (dropWhile_length_le _ _) hl) h' with h'' | h''
            · exact Or.inl h''
            · exact Or.inr (List.mem_cons_of_mem _ (mem_of_mem_dropWhile h''))
        · rw [if_neg hc] at hm
          rcases List.mem_cons.mp hm with h' | h'
          · exact Or.inr (h' ▸ List.mem_cons_self _ _)
          · rcases ih _ hl h' with h'' | h''
            · exact Or.inl h''
            · exact Or.inr (List.mem_cons_of_mem _ h'')
  exact key l.length l le_rfl h

theorem no_nl_formatLine (s : Int) (l : List Char) (h : '\n' ∉ l) :
    '\n' ∉ (formatLine s l).1 := by
  have hc : '\n' ∉ collapseWs (trimWs l) := by
    intro hm
    rcases mem_collapseWs hm with h' | h'
    · exact absurd h' (by decide)
    · exact h (mem_of_mem_trimWs h')
  have hrep : ∀ n : Nat, '\n' ∉ List.replicate n ' ' := by
    intro n hm
    have := List.eq_of_mem_replicate hm
    exact absurd this (by decide)
  by_cases h0 : trimWs l = []
  · simp [formatLine, h0]
  · by_cases hcm : startsWithComment (collapseWs (trimWs l)) = true
    · simp only [formatLine, if_neg h0, if_pos hcm]
      intro hm
      rcases List.mem_append.mp hm with h' | h'
      · exact hrep _ h'
      · exact hc h'
    · simp only [formatLine, if_neg h0, if_neg hcm]
      intro hm
      rcases List.mem_append.mp hm with h' | h'
      · exact hrep _ h'
      · exact hc h'

theorem no_nl_formatLines : ∀ (ls : List (List Char)) (s : Int),
    (∀ l ∈ ls, '\n' ∉ l) → ∀ l ∈ formatLines s ls, '\n' ∉ l := by
  intro ls
  induction ls with
  | nil => intro s _ l hl; exact absurd hl (by simp [formatLines])
  | cons l0 ls ih =>
    intro s hin l hl
    simp only [formatLines] at hl
    rcases List.mem_cons.mp hl with h' | h'
    · exact h' ▸ no_nl_formatLine s l0 (hin l0 (List.mem_cons_self _ _))
    · exact ih _ (fun x hx => hin x (List.mem_cons_of_mem _ hx)) l h'

theorem formatLines_ne_nil {ls : List (List Char)} (h : ls ≠ []) (s : Int) :
    formatLines s ls ≠ [] := by
  cases ls with
  | nil => exact absurd rfl h
  | cons l ls => simp [formatLines]

/-- **C1.** The indentation formatter is idempotent: formatting a second
time changes nothing, for every input text. -/
theorem formatSapfCode_idempotent (t : List Char) :
    formatSapfCode (formatSapfCode t) = formatSapfCode t := by
  unfold formatSapfCode
  rw [splitOnNl_joinNl (formatLines 0 (splitOnNl t))
        (formatLines_ne_nil (splitOnNl_ne_nil t) 0)
        (no_nl_formatLines _ 0 (fun l hl => no_nl_mem_splitOnNl t l hl)),
      formatLines_fix]

/-- A sanity anchor for the formatter embedding: content inside brackets is
indented by `indentSize` spaces and a leading closing bracket outdents. -/
example : formatSapfCode ("(foo\nbar\n)".toList) = "(foo\n  bar\n)".toList := by decide

example : formatSapfCode ("  a    b\n;;   c".toList) = "a b\n;; c".toList := by decide

/-! ### Non-negativity of the running indent level -/

theorem formatLine_snd_nonneg (s : Int) (l : List Char) (hs : 0 ≤ s) :
    0 ≤ (formatLine s l).2 := by
  by_cases h0 : trimWs l = []
  · simpa [formatLine, h0] using hs
  · by_cases hcm : startsWithComment (collapseWs (trimWs l)) = true
    · simpa [formatLine, if_neg h0, hcm] using hs
    · simp only [formatLine, if_neg h0, if_neg hcm]
      exact le_max_left 0 _

theorem levelsAfter_nonneg : ∀ (ls : List (List Char)) (s : Int), 0 ≤ s →
    ∀ v ∈ levelsAfter s ls, 0 ≤ v := by
  intro ls
  induction ls with
  | nil => intro s _ v hv; exact absurd hv (by simp [levelsAfter])
  | cons l ls ih =>
    intro s hs v hv
    simp only [levelsAfter] at hv
    rcases List.mem_cons.mp hv with h | h
    · exact h ▸ formatLine_snd_nonneg s l hs
    · exact ih _ (formatLine_snd_nonneg s l hs) v h

/-- **C6.** For every input, the formatter's running indent level stays
non-negative after every processed line (it is clamped at 0), the per-line
indent it emits is computed from a non-negative level, and every emitted
non-empty line consists of a (non-negative) number of spaces followed by
the cleaned line body. -/
theorem formatter_nonneg_indent :
    (∀ (s : Int) (c : List Char), 0 ≤ s → 0 ≤ lineIndentFor s c) ∧
    (∀ (s : Int) (ls : List (List Char)), 0 ≤ s → ∀ v ∈ levelsAfter s ls, 0 ≤ v) ∧
    (∀ (s : Int) (l : List Char),
      (formatLine s l).1 = [] ∨
      ∃ n : Nat, (formatLine s l).1 = List.replicate n ' ' ++ collapseWs (trimWs l)) := by
  refine ⟨?_, ?_, ?_⟩
  · intro s c hs
    rw [lineIndentFor]
    split
    · exact le_max_left 0 _
    · exact hs
  · exact fun s ls hs => levelsAfter_nonneg ls s hs
  · intro s l
    by_cases h0 : trimWs l = []
    · left; simp [formatLine, h0]
    · right
      by_cases hcm : startsWithComment (collapseWs (trimWs l)) = true
      · exact ⟨(s * (indentSize : Int)).toNat,
          by simp only [formatLine, if_neg h0, if_pos hcm]⟩
      · exact ⟨(lineIndentFor s (collapseWs (trimWs l)) * (indentSize : Int)).toNat,
          by simp only [formatLine, if_neg h0, if_neg hcm]⟩

/-- Witness for `formatter_nonneg_indent` at concrete inputs, including a
text that is net-unbalanced towards closing brackets. -/
theorem formatter_nonneg_indent_witness :
    ((0 : Int) ≤ lineIndentFor 0 (']' :: [])) ∧
    (∀ v ∈ levelsAfter 0 [[')'], [')'], ['(']], (0 : Int) ≤ v) :=
  ⟨formatter_nonneg_indent.1 0 (']' :: []) (by decide),
   formatter_nonneg_indent.2.1 0 [[')'], [')'], ['(']] (by decide)⟩

/-! ### Block locator (src/unnamed/part_000, src/src/text/utils.ts,
src/src/config/constants.ts) -/

/-- `brackets` from src/src/config/constants.ts: the table from bracket
kind to its `(open, close)` character pair; unknown kinds are absent. -/
def brackets (kind : List Char) : Option (Char × Char) :=
  if kind = "round".toList then some ('(', ')')
  else if kind = "square".toList then some ('[', ']')
  else if kind = "curly".toList then some ('{', '}')
  else none

/-- `defaultBracketType` from src/src/config/constants.ts. -/
def defaultBracketType : List Char := "round".toList

/-- The slice of the editor state that the text helpers read: document
text, the selection's start and end offsets, and the offset of the
selection's active position. -/
structure EditorState where
  text : List Char
  selStart : Nat
  selEnd : Nat
  active : Nat

/-- `editor.document.getText(editor.selection)`. -/
def selectionText (ed : EditorState) : List Char :=
  (ed.text.drop ed.selStart).take (ed.selEnd - ed.selStart)

/-- The `{ text, range }` pair returned by the block helpers; a range is
modelled by its start and end offsets. -/
structure BlockInfo where
  text : List Char
  rangeStart : Nat
  rangeEnd : Nat
deriving DecidableEq

/-- The line number of a document offset: the number of newlines before
it (`document.positionAt`). -/
def lineIndexOfOffset (text : List Char) (off : Nat) : Nat :=
  (text.take off).count '\n'

/-- The text of the given line (`document.lineAt(..).text`, without the
terminator). -/
def lineTextAt (text : List Char) (idx : Nat) : List Char :=
  (splitOnNl text).getD idx []

/-- The document offset at which the given line starts. -/
def lineStartOffset (text : List Char) (idx : Nat) : Nat :=
  ((splitOnNl text).take idx).foldl (fun a l => a + l.length + 1) 0

/-- `getLine` from src/src/text/utils.ts: the selection when non-empty,
else the trimmed current line (whose range is the whole line). -/
def getLine (ed : EditorState) : BlockInfo :=
  if selectionText ed ≠ [] then ⟨selectionText ed, ed.selStart, ed.selEnd⟩
  else
    let idx := lineIndexOfOffset ed.text ed.active
    let lt := lineTextAt ed.text idx
    ⟨trimWs lt, lineStartOffset ed.text idx, lineStartOffset ed.text idx + lt.length⟩

/-- The scan loop of `getBlockOrLine` (src/unnamed/part_000, lines 35–49):
push open-bracket offsets, pop on close brackets, and keep the popped pair
as the best match when it strictly contains the cursor and starts earlier
than the best so far. -/
def scanOuter (cursor : Nat) (openB closeB : Char) :
    List Char → Nat → List Nat → Option (Nat × Nat) → Option (Nat × Nat)
  | [], _, _, best => best
  | ch :: rest, i, stack, best =>
    if ch = openB then scanOuter cursor openB closeB rest (i + 1) (i :: stack) best
    else if ch = closeB then
      match stack with
      | [] => scanOuter cursor openB closeB rest (i + 1) [] best
      | openIndex :: st =>
        let keep : Bool :=
          decide (openIndex < cursor) && decide (cursor < i) &&
            (match best with
             | none => true
             | some b => decide (openIndex < b.1))
        scanOuter cursor openB closeB rest (i + 1) st
          (if keep then some (openIndex, i) else best)
    else scanOuter cursor openB closeB rest (i + 1) stack best

/-- The bracket pair `getBlockOrLine` ends up using: the configured pair
when the kind is known, otherwise the pair of `defaultBracketType` (the
code warns, substitutes the default kind and looks that up). -/
def effectivePair (kind : List Char) : Char × Char :=
  match brackets kind with
  | some p => p
  | none => ('(', ')')

/-- `getBlockOrLine` from src/unnamed/part_000: the selection when
non-empty; else the outermost bracket block of the configured (or
default) pair strictly containing the cursor, whose text excludes the
brackets themselves; else the line fallback `getLine`. -/
def getBlockOrLine (ed : EditorState) (kind : List Char) : BlockInfo :=
  if selectionText ed ≠ [] then ⟨selectionText ed, ed.selStart, ed.selEnd⟩
  else
    let p := effectivePair kind
    match scanOuter ed.active p.1 p.2 ed.text 0 [] none with
    | some (s, e) => ⟨(ed.text.drop (s + 1)).take (e - (s + 1)), s, e⟩
    | none => getLine ed

/-- The scan loop of `findInnerBlock` (src/unnamed/part_000, lines 78–91):
like `scanOuter` but the stack records the depth at push time and the best
match is the one with the greatest depth (ties broken by the most recent
find, since the comparison is strict). -/
def scanInner (cursor : Nat) (openB closeB : Char) :
    List Char → Nat → List (Nat × Nat) → Option (Nat × Nat × Nat) → Option (Nat × Nat × Nat)
  | [], _, _, best => best
  | ch :: rest, i, stack, best =>
    if ch = openB then
      scanInner cursor openB closeB rest (i + 1) ((i, stack.length) :: stack) best
    else if ch = closeB then
      match stack with
      | [] => scanInner cursor openB closeB rest (i + 1) [] best
      | info :: st =>
        let keep : Bool :=
          decide (info.1 < cursor) && decide (cursor < i) &&
            (match best with
             | none => true
             | some b => decide (b.2.2 < info.2))
        scanInner cursor openB closeB rest (i + 1) st
          (if keep then some (info.1, i, info.2) else best)
    else scanInner cursor openB closeB rest (i + 1) stack best

/-- `findInnerBlock` from src/unnamed/part_000: `none` for an unknown
bracket kind, else the deepest block strictly containing the cursor. -/
def findInnerBlock (ed : EditorState) (bracketType : List Char) : Option BlockInfo :=
  match brackets bracketType with
  | none => none
  | some pr =>
    match scanInner ed.active pr.1 pr.2 ed.text 0 [] none with
    | some (s, e, _) => some ⟨(ed.text.drop (s + 1)).take (e - (s + 1)), s, e⟩
    | none => none

/-- **C3.** On `"(foo (bar) baz)"` with an empty selection and the round
pair configured, a cursor strictly inside `(bar)` makes the outermost
locator return `"foo (bar) baz"` and the innermost-by-depth locator
return `"bar"`. -/
theorem locator_scenario (k : Nat) (h1 : 5 < k) (h2 : k < 9) :
    (getBlockOrLine ⟨"(foo (bar) baz)".toList, k, k, k⟩ "round".toList).text
        = "foo (bar) baz".toList ∧
    (findInnerBlock ⟨"(foo (bar) baz)".toList, k, k, k⟩ "round".toList).map BlockInfo.text
        = some ("bar".toList) := by
  have h : k = 6 ∨ k = 7 ∨ k = 8 := by omega
  rcases h with h | h | h <;> subst h <;> exact ⟨by decide, by decide⟩

/-- Witness for `locator_scenario` at cursor offset 7. -/
theorem locator_scenario_witness :
    (getBlockOrLine ⟨"(foo (bar) baz)".toList, 7, 7, 7⟩ "round".toList).text
        = "foo (bar) baz".toList ∧
    (findInnerBlock ⟨"(foo (bar) baz)".toList, 7, 7, 7⟩ "round".toList).map BlockInfo.text
        = some ("bar".toList) :=
  locator_scenario 7 (by decide) (by decide)

theorem scanOuter_no_brackets (cursor : Nat) (o c : Char) :
    ∀ (l : List Char) (i : Nat) (stack : List Nat) (best : Option (Nat × Nat)),
      (∀ ch ∈ l, ch ≠ o) → (∀ ch ∈ l, ch ≠ c) →
      scanOuter cursor o c l i stack best = best := by
  intro l
  induction l with
  | nil => intro i stack best _ _; rfl
  | cons ch rest ih =>
    intro i stack best ho hc
    simp only [scanOuter]
    rw [if_neg (ho ch (List.mem_cons_self _ _)),
      if_neg (hc ch (List.mem_cons_self _ _))]
    exact ih _ _ _ (fun x hx => ho x (List.mem_cons_of_mem _ hx))
      (fun x hx => hc x (List.mem_cons_of_mem _ hx))

/-- **C7.** With an empty selection, when the document contains no bracket
of the (effective) configured pair, `getBlockOrLine` returns the trimmed
text of the line containing the cursor, with the line's range. -/
theorem getBlockOrLine_no_brackets (ed : EditorState) (kind : List Char)
    (hsel : selectionText ed = [])
    (ho : ∀ ch ∈ ed.text, ch ≠ (effectivePair kind).1)
    (hc : ∀ ch ∈ ed.text, ch ≠ (effectivePair kind).2) :
    getBlockOrLine ed kind =
      ⟨trimWs (lineTextAt ed.text (lineIndexOfOffset ed.text ed.active)),
       lineStartOffset ed.text (lineIndexOfOffset ed.text ed.active),
       lineStartOffset ed.text (lineIndexOfOffset ed.text ed.active)
         + (lineTextAt ed.text (lineIndexOfOffset ed.text ed.active)).length⟩ := by
  have hnn : ¬ selectionText ed ≠ [] := fun h => h hsel
  rw [getBlockOrLine, if_neg hnn]
  simp only [scanOuter_no_brackets ed.active _ _ ed.text 0 [] none ho hc]
  rw [getLine, if_neg hnn]

/-- Witness for `getBlockOrLine_no_brackets`: a two-line bracketless
document whose first line carries stray whitespace. -/
theorem getBlockOrLine_no_brackets_witness :
    getBlockOrLine ⟨" hi \nyo".toList, 0, 0, 1⟩ "round".toList
      = ⟨"hi".toList, 0, 4⟩ :=
  (getBlockOrLine_no_brackets ⟨" hi \nyo".toList, 0, 0, 1⟩ "round".toList
    (by decide) (by decide) (by decide)).trans (by decide)

theorem scanOuter_strict (cursor : Nat) (o c : Char) :
    ∀ (l : List Char) (i : Nat) (stack : List Nat) (best : Option (Nat × Nat)),
      (∀ s e, best = some (s, e) → s < cursor ∧ cursor < e) →
      ∀ s e, scanOuter cursor o c l i stack best = some (s, e) → s < cursor ∧ cursor < e := by
  intro l
  induction l with
  | nil => intro i stack best hbest s e h; exact hbest s e h
  | cons ch rest ih =>
    intro i stack best hbest s e h
    simp only [scanOuter] at h
    by_cases hco : ch = o
    · rw [if_pos hco] at h
      exact ih _ _ _ hbest s e h
    · rw [if_neg hco] at h
      by_cases hcc : ch = c
      · rw [if_pos hcc] at h
        cases stack with
        | nil => exact ih _ _ _ hbest s e h
        | cons openIndex st =>
          refine ih _ _ _ ?_ s e h
          intro s' e' h'
          split at h'
          · rename_i hk
            rcases Bool.and_eq_true _ _ |>.mp hk with ⟨hk1, _⟩
            rcases Bool.and_eq_true _ _ |>.mp hk1 with ⟨hk3, hk4⟩
            cases h'
            exact ⟨of_decide_eq_true hk3, of_decide_eq_true hk4⟩
          · exact hbest s' e' h'
      · rw [if_neg hcc] at h
        exact ih _ _ _ hbest s e h

theorem scanInner_strict (cursor : Nat) (o c : Char) :
    ∀ (l : List Char) (i : Nat) (stack : List (Nat × Nat))
      (best : Option (Nat × Nat × Nat)),
      (∀ s e d, best = some (s, e, d) → s < cursor ∧ cursor < e) →
      ∀ s e d, scanInner cursor o c l i stack best = some (s, e, d) →
        s < cursor ∧ cursor < e := by
  intro l
  induction l with
  | nil => intro i stack best hbest s e d h; exact hbest s e d h
  | cons ch rest ih =>
    intro i stack best hbest s e d h
    simp only [scanInner] at h
    by_cases hco : ch = o
    · rw [if_pos hco] at h
      exact ih _ _ _ hbest s e d h
    · rw [if_neg hco] at h
      by_cases hcc : ch = c
      · rw [if_pos hcc] at h
        cases stack with
        | nil => exact ih _ _ _ hbest s e d h
        | cons info st =>
          refine ih _ _ _ ?_ s e d h
          intro s' e' d' h'
          split at h'
          · rename_i hk
            rcases Bool.and_eq_true _ _ |>.mp hk with ⟨hk1, _⟩
            rcases Bool.and_eq_true _ _ |>.mp hk1 with ⟨hk3, hk4⟩
            cases h'
            exact ⟨of_decide_eq_true hk3, of_decide_eq_true hk4⟩
          · exact hbest s' e' d' h'
      · rw [if_neg hcc] at h
        exact ih _ _ _ hbest s e d h

/-- **C8.** A matched pair is only a candidate when it contains the cursor
strictly (open < cursor < close), in both locator scans; in particular a
cursor sitting exactly on the open bracket (offset 0 of `"(ab)"`) or the
close bracket (offset 3) is not contained, and `getBlockOrLine` falls
through to the trimmed-line fallback. -/
theorem locator_strict_containment :
    (∀ (text : List Char) (cursor : Nat) (o c : Char) (s e : Nat),
       scanOuter cursor o c text 0 [] none = some (s, e) → s < cursor ∧ cursor < e) ∧
    (∀ (text : List Char) (cursor : Nat) (o c : Char) (s e d : Nat),
       scanInner cursor o c text 0 [] none = some (s, e, d) → s < cursor ∧ cursor < e) ∧
    getBlockOrLine ⟨"(ab)".toList, 0, 0, 0⟩ "round".toList = ⟨"(ab)".toList, 0, 4⟩ ∧
    getBlockOrLine ⟨"(ab)".toList, 3, 3, 3⟩ "round".toList = ⟨"(ab)".toList, 0, 4⟩ := by
  refine ⟨?_, ?_, by decide, by decide⟩
  · intro text cursor o c s e h
    exact scanOuter_strict cursor o c text 0 [] none (by intro s' e' h'; cases h') s e h
  · intro text cursor o c s e d h
    exact scanInner_strict cursor o c text 0 [] none (by intro s' e' d' h'; cases h') s e d h

/-- Witness for `locator_strict_containment`: the scans on `"(ab)"` with
the cursor at offset 2 return the pair (0, 3), which strictly contains 2. -/
theorem locator_strict_containment_witness :
    (0 < 2 ∧ 2 < 3) ∧ (0 < 2 ∧ 2 < 3) :=
  ⟨locator_strict_containment.1 "(ab)".toList 2 '(' ')' 0 3 (by decide),
   locator_strict_containment.2.1 "(ab)".toList 2 '(' ')' 0 3 0 (by decide)⟩

/-- **C9.** An unknown bracket-kind string does not make `getBlockOrLine`
fail: it behaves exactly as if the default kind `round` were configured. -/
theorem getBlockOrLine_unknown_kind (ed : EditorState) (kind : List Char)
    (h : brackets kind = none) :
    getBlockOrLine ed kind = getBlockOrLine ed defaultBracketType := by
  have hp : effectivePair kind = effectivePair defaultBracketType := by
    rw [effectivePair, h]
    rfl
  rw [getBlockOrLine, getBlockOrLine, hp]

/-- Witness for `getBlockOrLine_unknown_kind` with the unknown kind
`"weird"`. -/
theorem getBlockOrLine_unknown_kind_witness :
    getBlockOrLine ⟨"(a)".toList, 0, 0, 1⟩ "weird".toList
      = getBlockOrLine ⟨"(a)".toList, 0, 0, 1⟩ defaultBracketType :=
  getBlockOrLine_unknown_kind ⟨"(a)".toList, 0, 0, 1⟩ "weird".toList (by decide)

/-- **C10.** A non-empty selection wins outright: `getBlockOrLine` returns
the selected text and range no matter what bracket blocks surround the
cursor. -/
theorem getBlockOrLine_selection_precedence (ed : EditorState) (kind : List Char)
    (h : selectionText ed ≠ []) :
    getBlockOrLine ed kind = ⟨selectionText ed, ed.selStart, ed.selEnd⟩ := by
  rw [getBlockOrLine, if_pos h]

/-- Witness for `getBlockOrLine_selection_precedence`: the selection `"ab"`
inside `"(ab)"` is returned even though a round block contains the
cursor. -/
theorem getBlockOrLine_selection_precedence_witness :
    getBlockOrLine ⟨"(ab)".toList, 1, 3, 2⟩ "round".toList = ⟨"ab".toList, 1, 3⟩ :=
  (getBlockOrLine_selection_precedence ⟨"(ab)".toList, 1, 3, 2⟩ "round".toList
    (by decide)).trans (by decide)

/-! ### Catalog parser (src/src/language-generator.ts) -/

/-- Item lists and catalogs are insertion-ordered association lists,
modelling JavaScript plain objects (`Record<string, ...>`). -/
abbrev Items := List (List Char × List Char)

/-- `Record<string, { items: Record<string, string> }>`. -/
abbrev Catalog := List (List Char × Items)

/-- JavaScript object assignment `obj[k] = v`: update the value at an
existing key in place, else append the new key at the end. -/
def setKV (m : Items) (k v : List Char) : Items :=
  match m with
  | [] => [(k, v)]
  | (k0, v0) :: rest => if k0 = k then (k0, v) :: rest else (k0, v0) :: setKV rest k v

/-- `result[currentCategory] ??= { items: {} }`: create the category only
when absent, otherwise reuse it (this is what merges repeated banners). -/
def ensureCategory (r : Catalog) (cat : List Char) : Catalog :=
  if r.any (fun e => e.1 == cat) then r else r ++ [(cat, [])]

/-- `result[currentCategory].items[functionName] = value`. -/
def addItem (r : Catalog) (cat name value : List Char) : Catalog :=
  r.map (fun e => if e.1 = cat then (e.1, setKV e.2 name value) else e)

/-- `line.includes(pat)`. -/
def containsSeq (pat l : List Char) : Bool :=
  (List.range (l.length + 1)).any (fun i => (l.drop i).take pat.length == pat)

/-- The section marker `'BUILT IN FUNCTIONS'`. -/
def builtinMarker : List Char := "BUILT IN FUNCTIONS".toList

/-- The skipped annotation marker `' Argument Automapping'`. -/
def amapMarker : List Char := " Argument Automapping".toList

/-- `/^\*\*\* (.+) \*\*\*$/`: a category banner.  The group is everything
between the literal `*** ` and ` ***` delimiters; `.` cannot match a line
terminator, and the group must be non-empty. -/
def categoryOf (l : List Char) : Option (List Char) :=
  if 9 ≤ l.length && l.take 4 == "*** ".toList && l.drop (l.length - 4) == " ***".toList &&
      ((l.drop 4).take (l.length - 8)).all (fun c => !isLineTerm c)
  then some ((l.drop 4).take (l.length - 8))
  else none

/-- The JavaScript word class `\w`, i.e. `[A-Za-z0-9_]`. -/
def isWordChar (c : Char) : Bool :=
  ('a' ≤ c && c ≤ 'z') || ('A' ≤ c && c ≤ 'Z') || ('0' ≤ c && c ≤ '9') || c = '_'

/-- `\([^)]*\)` at the start of the input: the opening parenthesis up to
the *first* closing parenthesis (the starred class cannot cross one).
Returns the matched text and the remainder. -/
def sigLit (s : List Char) : Option (List Char × List Char) :=
  match s with
  | '(' :: rest =>
    let m := (rest.takeWhile (fun c => c ≠ ')')).length
    if m < rest.length then
      some ('(' :: (rest.take m ++ [')']), rest.drop (m + 1))
    else none
  | _ => none

/-- The signature alternation `(\([^)]*\)|@\w+\s*\([^)]*\))` at the start
of the input.  The two branches start with distinct literal characters, so
the alternation is deterministic; in the `@` branch the greedy `\w+` and
`\s*` runs are maximal because the following character must be `(`, which
is neither a word nor a whitespace character. -/
def sigAt (s : List Char) : Option (List Char × List Char) :=
  match s with
  | '(' :: _ => sigLit s
  | '@' :: rest =>
    let run := rest.takeWhile isWordChar
    if run.isEmpty then none
    else
      let r1 := rest.drop run.length
      let w := r1.takeWhile isWs
      match sigLit (r1.drop w.length) with
      | some (sg, rem) => some ('@' :: (run ++ w ++ sg), rem)
      | none => none
  | _ => none

/-- `signature.match(/^@(\w+)\s*(.+)$/)`, with the engine's backtracking:
`\w+` run lengths are tried longest first, and for the maximal run every
`\s*` length is tried longest first (for a shorter run the whitespace run
after it is empty); the first split whose trailing `.+` group is non-empty
and free of line terminators wins. -/
def specialSplit (sig : List Char) : Option (List Char × List Char) :=
  match sig with
  | '@' :: rest =>
    let maxRun := (rest.takeWhile isWordChar).length
    if maxRun = 0 then none
    else
      let cands := (List.range maxRun).flatMap (fun i =>
        let n := maxRun - i
        let r1 := rest.drop n
        let wlen := (r1.takeWhile isWs).length
        (List.range (wlen + 1)).map (fun j => (rest.take n, r1.drop (wlen - j))))
      cands.find? (fun p => !p.2.isEmpty && p.2.all (fun c => !isLineTerm c))
  | _ => none

/-- `/^ ([^\s]+) (\([^)]*\)|@\w+\s*\([^)]*\)) (.+)$/`: one leading space,
a maximal non-whitespace name followed by a literal space (a shorter name
would abut a non-space character, so the greedy run cannot backtrack), the
signature alternation, a literal space, and a non-empty terminator-free
description running to the end of the line. -/
def matchFnLineA (l : List Char) : Option (List Char × List Char × List Char) :=
  match l with
  | ' ' :: rest =>
    let name := rest.takeWhile (fun c => !isWs c)
    if name.isEmpty then none
    else
      match rest.drop name.length with
      | ' ' :: rest2 =>
        match sigAt rest2 with
        | some (sg, rem) =>
          match rem with
          | ' ' :: desc =>
            if !desc.isEmpty && desc.all (fun c => !isLineTerm c) then some (name, sg, desc)
            else none
          | _ => none
        | none => none
      | _ => none
  | _ => none

/-- `/^\s+([^\s]+)\s+(\([^)]*\))\s+(.+)$/` for operator-variant lines.
All runs are maximal for the same no-backtracking reasons as in
`matchFnLineA`, except the final `\s+`: it is shrunk from its maximal
length until the `.+` description becomes non-empty and terminator-free
(so a line ending in two or more whitespace characters yields a
whitespace description). -/
def matchFnLineB (l : List Char) : Option (List Char × List Char × List Char) :=
  let w0 := l.takeWhile isWs
  if w0.isEmpty then none
  else
    let r1 := l.drop w0.length
    let name := r1.takeWhile (fun c => !isWs c)
    if name.isEmpty then none
    else
      let r2 := r1.drop name.length
      let w2 := r2.takeWhile isWs
      if w2.isEmpty then none
      else
        match sigLit (r2.drop w2.length) with
        | some (sg, rem) =>
          let wr := (rem.takeWhile isWs).length
          let kmax := min wr (rem.length - 1)
          match ((List.range kmax).map (fun i => kmax - i)).find?
              (fun k => (rem.drop k).all (fun c => !isLineTerm c)) with
          | some k => some (name, sg, rem.drop k)
          | none => none
        | none => none

/-- `/^ ([^\s]+) (\([^)]*\)|@\w+\s*\([^)]*\))\s*$/`: like `matchFnLineA`
but the signature may only be followed by whitespace. -/
def matchFnLineC (l : List Char) : Option (List Char × List Char) :=
  match l with
  | ' ' :: rest =>
    let name := rest.takeWhile (fun c => !isWs c)
    if name.isEmpty then none
    else
      match rest.drop name.length with
      | ' ' :: rest2 =>
        match sigAt rest2 with
        | some (sg, rem) => if rem.all isWs then some (name, sg) else none
        | none => none
      | _ => none
  | _ => none

/-- `/^ ([^\s]+) - (.+)$/`: a name, a literal ` - ` separator, and a
non-empty terminator-free description. -/
def matchFnLineD (l : List Char) : Option (List Char × List Char) :=
  match l with
  | ' ' :: rest =>
    let name := rest.takeWhile (fun c => !isWs c)
    if name.isEmpty then none
    else
      match rest.drop name.length with
      | ' ' :: '-' :: ' ' :: desc =>
        if !desc.isEmpty && desc.all (fun c => !isLineTerm c) then some (name, desc)
        else none
      | _ => none
  | _ => none

/-- One iteration of the line loop of `parseSapfHelpOutput`.  The state is
`(result, currentCategory, inFunctionSection)`. -/
def parseLine (st : Catalog × Option (List Char) × Bool) (line : List Char) :
    Catalog × Option (List Char) × Bool :=
  if containsSeq builtinMarker line then (st.1, st.2.1, true)
  else if !st.2.2 then st
  else
    match categoryOf line with
    | some cat => (ensureCategory st.1 cat, some cat, true)
    | none =>
      match st.2.1 with
      | none => st
      | some cat =>
        if trimWs line = [] then st
        else if line.take amapMarker.length = amapMarker then st
        else
          match matchFnLineA line with
          | some (name, sg, desc) =>
            let value :=
              match specialSplit sg with
              | some (sp, content) => '@' :: (sp ++ ' ' :: (content ++ ' ' :: desc))
              | none => sg ++ ' ' :: desc
            (addItem st.1 cat name value, st.2.1, true)
          | none =>
            if 6 ≤ (line.takeWhile isWs).length then
              match matchFnLineB line with
              | some (name, sg, desc) =>
                (addItem st.1 cat name (sg ++ ' ' :: desc), st.2.1, true)
              | none => st
            else
              match matchFnLineC line with
              | some (name, sg) => (addItem st.1 cat name sg, st.2.1, true)
              | none =>
                match matchFnLineD line with
                | some (name, desc) => (addItem st.1 cat name desc, st.2.1, true)
                | none => st

/-- `parseSapfHelpOutput` from src/src/language-generator.ts. -/
def parseSapfHelpOutput (output : List Char) : Catalog :=
  ((splitOnNl output).foldl parseLine ([], none, false)).1

/-- Sanity anchor: the spec's §8 parsing scenario. -/
example :
    parseSapfHelpOutput "BUILT IN FUNCTIONS\n*** Math ***\n add (a b --> c) adds two\n".toList
      = [("Math".toList, [("add".toList, "(a b --> c) adds two".toList)])] := by decide

/-- Sanity anchor: a special annotation is split off and re-attached in
front of the stored description, and repeated banners merge. -/
example :
    parseSapfHelpOutput
        "BUILT IN FUNCTIONS\n*** A ***\n f @k (x --> y) doc\n*** A ***\n g - plain\n".toList
      = [("A".toList, [("f".toList, "@k (x --> y) doc".toList),
                       ("g".toList, "plain".toList)])] := by decide

/-! ### Catalog well-formedness and merge idempotence -/

/-- The keys of an association list are pairwise distinct. -/
def KeysNodup {β : Type} (m : List (List Char × β)) : Prop :=
  (m.map Prod.fst).Nodup

/-- Every category has distinct keys and so does every item list. -/
def CatalogWf (r : Catalog) : Prop :=
  KeysNodup r ∧ ∀ e ∈ r, KeysNodup e.2

theorem mem_keys_setKV {k v a : List Char} :
    ∀ {m : Items}, a ∈ (setKV m k v).map Prod.fst → a ∈ m.map Prod.fst ∨ a = k := by
  intro m
  induction m with
  | nil =>
    intro h
    simp only [setKV, List.map_cons, List.map_nil, List.mem_singleton] at h
    exact Or.inr h
  | cons e rest ih =>
    rcases e with ⟨k0, v0⟩
    intro h
    rw [setKV] at h
    by_cases hk : k0 = k
    · rw [if_pos hk] at h
      exact Or.inl h
    · rw [if_neg hk] at h
      rcases List.mem_cons.mp h with h' | h'
      · exact Or.inl (by simp [h'])
      · rcases ih h' with h'' | h''
        · exact Or.inl (List.mem_cons_of_mem _ h'')
        · exact Or.inr h''

theorem setKV_nodup {k v : List Char} :
    ∀ {m : Items}, KeysNodup m → KeysNodup (setKV m k v) := by
  intro m
  induction m with
  | nil => intro _; simp [setKV, KeysNodup]
  | cons e rest ih =>
    rcases e with ⟨k0, v0⟩
    intro h
    rcases (List.nodup_cons.mp h) with ⟨h1, h2⟩
    rw [setKV]
    by_cases hk : k0 = k
    · rw [if_pos hk]
      exact List.nodup_cons.mpr ⟨h1, h2⟩
    · rw [if_neg hk]
      refine List.nodup_cons.mpr ⟨?_, ih h2⟩
      intro hmem
      rcases mem_keys_setKV hmem with h' | h'
      · exact h1 h'
      · exact hk h'

theorem setKV_self {k v : List Char} :
    ∀ {m : Items}, KeysNodup m → (k, v) ∈ m → setKV m k v = m := by
  intro m
  induction m with
  | nil => intro _ h; exact absurd h (by simp)
  | cons e rest ih =>
    rcases e with ⟨k0, v0⟩
    intro hnd hmem
    rcases (List.nodup_cons.mp hnd) with ⟨h1, h2⟩
    rw [setKV]
    by_cases hk : k0 = k
    · rw [if_pos hk]
      rcases List.mem_cons.mp hmem with h' | h'
      · rw [← (Prod.mk.injEq .. |>.mp h'.symm).2]
      · exact absurd (by simpa [← hk] using List.mem_map_of_mem Prod.fst h') h1
    · rw [if_neg hk]
      rcases List.mem_cons.mp hmem with h' | h'
      · obtain ⟨hk0, -⟩ := Prod.mk.injEq .. |>.mp h'
        exact absurd hk0.symm hk
      · rw [ih h2 h']

theorem foldl_setKV_self {m : Items} (hnd : KeysNodup m) :
    ∀ l : Items, (∀ p ∈ l, p ∈ m) →
      l.foldl (fun acc p => setKV acc p.1 p.2) m = m := by
  intro l
  induction l with
  | nil => intro _; rfl
  | cons p rest ih =>
    intro hsub
    rw [List.foldl_cons, setKV_self hnd (hsub p (List.mem_cons_self _ _))]
    exact ih (fun x hx => hsub x (List.mem_cons_of_mem _ hx))

theorem map_id_of_mem {α : Type} {f : α → α} :
    ∀ {l : List α}, (∀ x ∈ l, f x = x) → l.map f = l := by
  intro l
  induction l with
  | nil => intro _; rfl
  | cons x xs ih =>
    intro h
    rw [List.map_cons, h x (List.mem_cons_self _ _),
      ih (fun y hy => h y (List.mem_cons_of_mem _ hy))]

theorem eq_of_keys_nodup {β : Type} :
    ∀ {c : List (List Char × β)}, KeysNodup c →
      ∀ {e e0}, e ∈ c → e0 ∈ c → e0.1 = e.1 → e0 = e := by
  intro c
  induction c with
  | nil => intro _ e e0 he; exact absurd he (by simp)
  | cons a rest ih =>
    intro hnd e e0 he he0 hk
    rcases (List.nodup_cons.mp hnd) with ⟨h1, h2⟩
    rcases List.mem_cons.mp he with h | h <;> rcases List.mem_cons.mp he0 with h0 | h0
    · rw [h, h0]
    · exfalso
      apply h1
      have hm : e0.1 ∈ rest.map Prod.fst := List.mem_map_of_mem Prod.fst h0
      rw [hk, h] at hm
      exact hm
    · exfalso
      apply h1
      have hm : e.1 ∈ rest.map Prod.fst := List.mem_map_of_mem Prod.fst h
      rw [← hk, h0] at hm
      exact hm
    · exact ih h2 h h0 hk

theorem keys_addItem (r : Catalog) (cat n v : List Char) :
    (addItem r cat n v).map Prod.fst = r.map Prod.fst := by
  induction r with
  | nil => rfl
  | cons e rest ih =>
    simp only [addItem, List.map_cons] at *
    rw [ih]
    by_cases hk : e.1 = cat
    · rw [if_pos hk]
    · rw [if_neg hk]

theorem ensureCategory_wf {r : Catalog} (h : CatalogWf r) (cat : List Char) :
    CatalogWf (ensureCategory r cat) := by
  rw [ensureCategory]
  split
  · exact h
  · rename_i hany
    constructor
    · rw [KeysNodup, List.map_append]
      rw [List.nodup_append]
      refine ⟨h.1, List.nodup_singleton _, ?_⟩
      intro a ha hb
      simp only [List.map_cons, List.map_nil, List.mem_singleton] at hb
      rcases List.mem_map.mp ha with ⟨e, he, hae⟩
      exact hany (List.any_eq_true.mpr ⟨e, he, by simp [hae, hb]⟩)
    · intro e he
      rcases List.mem_append.mp he with h' | h'
      · exact h.2 e h'
      · simp only [List.mem_singleton] at h'
        rw [h']
        exact List.nodup_nil

theorem addItem_wf {r : Catalog} (h : CatalogWf r) (cat n v : List Char) :
    CatalogWf (addItem r cat n v) := by
  constructor
  · rw [KeysNodup, keys_addItem]
    exact h.1
  · intro e' he'
    rcases List.mem_map.mp he' with ⟨e, he, hfe⟩
    by_cases hk : e.1 = cat
    · rw [if_pos hk] at hfe
      rw [← hfe]
      exact setKV_nodup (h.2 e he)
    · rw [if_neg hk] at hfe
      rw [← hfe]
      exact h.2 e he

theorem parseLine_wf (st : Catalog × Option (List Char) × Bool) (line : List Char)
    (h : CatalogWf st.1) : CatalogWf (parseLine st line).1 := by
  rw [parseLine]
  repeat' split
  all_goals
    first
      | exact h
      | exact ensureCategory_wf h _
      | exact addItem_wf h _ _ _

theorem foldl_parseLine_wf :
    ∀ (lines : List (List Char)) (st : Catalog × Option (List Char) × Bool),
      CatalogWf st.1 → CatalogWf ((lines.foldl parseLine st).1) := by
  intro lines
  induction lines with
  | nil => intro st h; exact h
  | cons l ls ih =>
    intro st h
    rw [List.foldl_cons]
    exact ih _ (parseLine_wf st l h)

theorem parseSapfHelpOutput_wf (s : List Char) : CatalogWf (parseSapfHelpOutput s) := by
  apply foldl_parseLine_wf
  exact ⟨List.nodup_nil, by simp⟩

/-- Modelled from the spec: the repository contains no catalog-merge
function under src/ (spec §3: "merging two parses of the same category
name must union their entries rather than overwrite"; §8: "parse(s)
merged with parse(s) equals parse(s)").  Merging appends absent
categories and, for a category already present, folds the incoming items
into the existing ones with the parser's own insertion-or-update rule
`setKV`, so entries are unioned, never duplicated or dropped. -/
def mergeCatalogs (a b : Catalog) : Catalog :=
  b.foldl (fun acc e =>
    if acc.any (fun e0 => e0.1 == e.1) then
      acc.map (fun e0 =>
        if e0.1 = e.1 then (e0.1, e.2.foldl (fun m p => setKV m p.1 p.2) e0.2) else e0)
    else acc ++ [e]) a

theorem mergeCatalogs_self {c : Catalog} (h : CatalogWf c) : mergeCatalogs c c = c := by
  rw [mergeCatalogs]
  have key : ∀ l : Catalog, (∀ e ∈ l, e ∈ c) →
      l.foldl (fun acc e =>
        if acc.any (fun e0 => e0.1 == e.1) then
          acc.map (fun e0 =>
            if e0.1 = e.1 then (e0.1, e.2.foldl (fun m p => setKV m p.1 p.2) e0.2) else e0)
        else acc ++ [e]) c = c := by
    intro l
    induction l with
    | nil => intro _; rfl
    | cons e rest ih =>
      intro hsub
      have he : e ∈ c := hsub e (List.mem_cons_self _ _)
      have hany : c.any (fun e0 => e0.1 == e.1) = true :=
        List.any_eq_true.mpr ⟨e, he, by simp⟩
      have hmap : c.map (fun e0 =>
          if e0.1 = e.1 then (e0.1, e.2.foldl (fun m p => setKV m p.1 p.2) e0.2) else e0)
            = c := by
        apply map_id_of_mem
        intro e0 he0
        by_cases hk : e0.1 = e.1
        · rw [if_pos hk]
          have heq : e0 = e := eq_of_keys_nodup h.1 he he0 hk
          rw [← heq, foldl_setKV_self (h.2 e0 he0) e0.2 (fun p hp => hp)]
        · rw [if_neg hk]
      rw [List.foldl_cons, if_pos hany, hmap]
      exact ih (fun x hx => hsub x (List.mem_cons_of_mem _ hx))
  exact key c (fun _ hx => hx)

/-- **C4.** Parsing a raw help text twice and merging the two (identical)
catalogs gives exactly the single-parse catalog: repeated category
banners cannot duplicate or drop entries. -/
theorem parse_merge_idempotent (s : List Char) :
    mergeCatalogs (parseSapfHelpOutput s) (parseSapfHelpOutput s) = parseSapfHelpOutput s :=
  mergeCatalogs_self (parseSapfHelpOutput_wf s)

/-- **C5.** The parser is a total function of its input (it is a plain
fold, so it cannot raise), and on any input none of whose lines contains
the `BUILT IN FUNCTIONS` marker it returns the empty catalog. -/
theorem parse_no_marker_empty (s : List Char)
    (h : ∀ l ∈ splitOnNl s, containsSeq builtinMarker l = false) :
    parseSapfHelpOutput s = [] := by
  have key : ∀ (lines : List (List Char)) (r : Catalog) (cc : Option (List Char)),
      (∀ l ∈ lines, containsSeq builtinMarker l = false) →
      lines.foldl parseLine (r, cc, false) = (r, cc, false) := by
    intro lines
    induction lines with
    | nil => intro r cc _; rfl
    | cons l ls ih =>
      intro r cc hno
      rw [List.foldl_cons]
      have h1 : parseLine (r, cc, false) l = (r, cc, false) := by
        rw [parseLine, if_neg (by simp [hno l (List.mem_cons_self _ _)])]
        simp
      rw [h1]
      exact ih r cc (fun x hx => hno x (List.mem_cons_of_mem _ hx))
  rw [parseSapfHelpOutput, key (splitOnNl s) [] none h]

/-- Witness for `parse_no_marker_empty` on a two-line markerless input. -/
theorem parse_no_marker_empty_witness :
    parseSapfHelpOutput "hello\nworld".toList = [] :=
  parse_no_marker_empty "hello\nworld".toList (by decide)

/-! ### Description-splitting rule (`languagePattern` in
src/src/config/constants.ts, applied by `parseKeywordDescription` in
src/unnamed/part_004) -/

/-- The character class `[a-z]`. -/
def isLowerAZ (c : Char) : Bool := 'a' ≤ c && c ≤ 'z'

/-- All ways a greedy `\s*` can split the input: each candidate is the
remainder after the consumed run, longest consumed first. -/
def wsSplits (s : List Char) : List (List Char) :=
  let n := (s.takeWhile isWs).length
  (List.range (n + 1)).map (fun i => s.drop (n - i))

/-- Candidates of the optional tag group `(?:@(?<special>[a-z]+)\s*)?` of
`languagePattern`, in engine order: first the group matched with `[a-z]+`
runs longest first and, inside each, `\s*` longest first (for a shortened
run the following character is a lowercase letter, so its whitespace run
is empty); last, the group skipped. -/
def tagCands (s : List Char) : List (Option (List Char) × List Char) :=
  (match s with
   | '@' :: rest =>
     let run := rest.takeWhile isLowerAZ
     (List.range run.length).flatMap (fun i =>
       let n := run.length - i
       (wsSplits (rest.drop n)).map (fun r => (some (rest.take n), r)))
   | _ => []) ++ [(none, s)]

/-- Candidates of the optional signature group
`(?<signature>\([^)]*?-->\s*[^)]*?\))?` of `languagePattern`, in engine
order.  The first lazy `[^)]*?` places `-->` at each position not
preceded by a `)`, earliest first; after the arrow the greedy `\s*` is
tried longest first; the second lazy `[^)]*?` stops at the first `)`. -/
def sigCands (s : List Char) : List (Option (List Char) × List Char) :=
  (match s with
   | '(' :: rest =>
     ((List.range (rest.length + 1)).filter (fun n =>
         (rest.take n).all (fun c => c ≠ ')') &&
         (rest.drop n).take 3 == ['-', '-', '>'])).flatMap (fun n =>
       let afterArrow := rest.drop (n + 3)
       let wlen := (afterArrow.takeWhile isWs).length
       (List.range (wlen + 1)).flatMap (fun i =>
         let w := wlen - i
         let t := afterArrow.drop w
         let m := (t.takeWhile (fun c => c ≠ ')')).length
         if m < t.length then
           [(some (s.take (n + w + m + 5)), s.drop (n + w + m + 5))]
         else []))
   | _ => []) ++ [(none, s)]

/-- `rawDescription.match(languagePattern)`, i.e.
`/^(?:@(?<special>[a-z]+)\s*)?(?<signature>\([^)]*?-->\s*[^)]*?\))?\s*(?<description>.*)$/`:
enumerate the groups' alternatives in the engine's preference order and
keep the first whose final `.*$` description (everything left after the
last `\s*`) contains no line terminator. -/
def matchLanguagePattern (s : List Char) :
    Option (Option (List Char) × Option (List Char) × List Char) :=
  ((tagCands s).flatMap (fun pa =>
    (sigCands pa.2).flatMap (fun pb =>
      (wsSplits pb.2).map (fun r => (pa.1, pb.1, r))))).find?
    (fun cand => cand.2.2.all (fun c => !isLineTerm c))

/-- `KeywordInfo` from src/unnamed/part_004. -/
structure KeywordInfo where
  keyword : List Char
  signature : Option (List Char)
  description : List Char
  category : List Char
  special : Option (List Char)
deriving DecidableEq

/-- `parseKeywordDescription` from src/unnamed/part_004: unmatched
optional groups become `null`; the description group (or, when the whole
pattern fails, the raw string) is trimmed. -/
def parseKeywordDescription (rawDescription keyword category : List Char) : KeywordInfo :=
  match matchLanguagePattern rawDescription with
  | some (sp, sg, d) => ⟨keyword, sg, trimWs d, category, sp⟩
  | none => ⟨keyword, none, trimWs rawDescription, category, none⟩

/-- **C2.** The shared description-splitting rule maps
`"@k (a b --> c) does X"` to special `k`, signature `(a b --> c)`,
description `does X`; `"(a --> b) plain desc"` to no special, signature
`(a --> b)`, description `plain desc`; and `"just text"` to no special,
no signature, description `just text`. -/
theorem description_splitting_scenarios :
    parseKeywordDescription "@k (a b --> c) does X".toList "f".toList "Cat".toList
      = ⟨"f".toList, some "(a b --> c)".toList, "does X".toList, "Cat".toList,
         some "k".toList⟩ ∧
    parseKeywordDescription "(a --> b) plain desc".toList "f".toList "Cat".toList
      = ⟨"f".toList, some "(a --> b)".toList, "plain desc".toList, "Cat".toList, none⟩ ∧
    parseKeywordDescription "just text".toList "f".toList "Cat".toList
      = ⟨"f".toList, none, "just text".toList, "Cat".toList, none⟩ :=
  ⟨by decide, by decide, by decide⟩

end VsSapf
